import Mathlib

/-!
# Verification of the revera research-agent backend

Shallow embedding, in Lean 4, of the pure core of the backend under
`backend/app`: the refinement gate of the agent graph
(`agents/graph_nodes.py`), hybrid search with RRF fusion
(`services/search.py`), the planner fallback logic (`agents/planner.py`),
streaming synthesis citation accounting (`agents/synthesis.py`), web-source
dedup/re-ranking (`agents/web_search.py`) and source normalization
(`agents/orchestrator.py`).  Python floats are modelled as rationals, Python
dicts with a fixed key set as structures with optional fields, and insertion
ordered dicts as association lists.
-/

/- ------------------------------------------------------------------ -/
/- Critic node and refinement gate (agents/graph_nodes.py)            -/
/- ------------------------------------------------------------------ -/

/-- The fields of the critic's verification dict that the refinement gate
reads (`verification_status`, `confidence_score`).  `CriticAgent.run`
always populates `verification_status` (defaulting it to "partial") and
`confidence_score` (defaulting to 0.5), so they are total fields here. -/
structure Verification where
  verification_status : String
  confidence_score : Rat
  deriving DecidableEq, Repr

/-- The default verification substituted by `critic_node` when
`critic.run` raises: status "unknown", confidence 0.5 (we omit the list
fields, which the gate never reads). -/
def default_verification : Verification :=
  { verification_status := "unknown", confidence_score := 1/2 }

/-- The slice of `ResearchState` (agents/graph_state.py) driving the
refinement loop. -/
structure CriticState where
  iteration_count : Nat
  max_iterations : Nat
  needs_refinement : Bool
  verification : Option Verification
  deriving DecidableEq, Repr

/-- `critic_node` (graph_nodes.py lines 463-539), as a function of the
critic agent's outcome: `some v` when `critic.run` returns verification
`v`, `none` when it raises an exception.  Mirrors: the default
verification on the exception path, the `current_iteration <
max_iterations` guard, the `confidence in ["low","failed","unverified"]`
check, and the `iteration_count + 1` update. -/
def critic_node (outcome : Option Verification) (s : CriticState) : CriticState :=
  let verification :=
    match outcome with
    | some v => v
    | none => default_verification
  let current_iteration := s.iteration_count
  let confidence := verification.verification_status
  let needs_refinement :=
    decide (current_iteration < s.max_iterations) &&
      (["low", "failed", "unverified"].contains confidence)
  { s with
      verification := some verification
      needs_refinement := needs_refinement
      iteration_count := current_iteration + 1 }

/-- `should_refine` (graph_nodes.py lines 543-554): the conditional edge
label computed from the post-critic state. -/
def should_refine (s : CriticState) : String :=
  if s.needs_refinement then "synthesis" else "end"

/-- The synthesis-critic cycle of the compiled graph
(graph_builder.py): `synthesis -> critic -> (should_refine ? synthesis :
END)`.  Only `critic_node` touches `iteration_count`, so the loop is
driven entirely by the critic outcomes; `outcomes k` is the critic
agent's outcome on its `k`-th run.  Returns the final state together
with the number of critic node runs. -/
def session_loop (outcomes : Nat → Option Verification) (k : Nat)
    (s : CriticState) : CriticState × Nat :=
  if h : should_refine (critic_node (outcomes k) s) = "synthesis" then
    have hlt : s.iteration_count < s.max_iterations := by
      by_contra hge
      simp [should_refine, critic_node, hge] at h
    let t := session_loop outcomes (k + 1) (critic_node (outcomes k) s)
    (t.1, t.2 + 1)
  else
    (critic_node (outcomes k) s, 1)
termination_by s.max_iterations - s.iteration_count
decreasing_by
  simp [critic_node]
  omega

/- ------------------------------------------------------------------ -/
/- Source normalization (agents/orchestrator.py lines 446-473)        -/
/- ------------------------------------------------------------------ -/

/-- A source dict as it appears in `internal_sources` / `web_sources` /
the normalized output.  Every key that `_normalize_sources` reads or
writes is a field; `none` models "key absent or value None" (the two are
indistinguishable under `dict.get`). -/
structure SrcDict where
  type : Option String := none
  chunk_id : Option String := none
  document_id : Option String := none
  url : Option String := none
  title : Option String := none
  content : Option String := none
  score : Option Rat := none
  relevance_score : Option Rat := none
  deriving DecidableEq, Repr

/-- The internal branch of `Orchestrator._normalize_sources`. -/
def normalize_internal (source : SrcDict) : SrcDict :=
  { type := some "internal"
    chunk_id := source.chunk_id
    document_id := source.document_id
    content := some (source.content.getD "")
    score := some (source.score.getD 0) }

/-- The web branch of `Orchestrator._normalize_sources`; note the score
fallback chain `relevance_score` then `score` then `0`. -/
def normalize_web (source : SrcDict) : SrcDict :=
  { type := some "web"
    url := source.url
    title := source.title
    content := some (source.content.getD "")
    score := some (source.relevance_score.getD (source.score.getD 0)) }

/-- `Orchestrator._normalize_sources` (orchestrator.py lines 446-473):
normalized internal sources followed by normalized web sources. -/
def normalize_sources (internal_sources web_sources : List SrcDict) : List SrcDict :=
  internal_sources.map normalize_internal ++ web_sources.map normalize_web

/- ------------------------------------------------------------------ -/
/- Lemmas about the critic node and the session loop                  -/
/- ------------------------------------------------------------------ -/

lemma critic_node_iteration_count (out : Option Verification) (s : CriticState) :
    (critic_node out s).iteration_count = s.iteration_count + 1 := rfl

lemma critic_node_max_iterations (out : Option Verification) (s : CriticState) :
    (critic_node out s).max_iterations = s.max_iterations := rfl

lemma should_refine_critic_node (out : Option Verification) (s : CriticState) :
    should_refine (critic_node out s) = "synthesis" ↔
      (s.iteration_count < s.max_iterations ∧
        (out.getD default_verification).verification_status ∈
          ["low", "failed", "unverified"]) := by
  cases out <;> simp [should_refine, critic_node, List.elem_iff] <;> tauto

lemma session_loop_pos (outcomes : Nat → Option Verification) (k : Nat)
    (s : CriticState) (h : should_refine (critic_node (outcomes k) s) = "synthesis") :
    session_loop outcomes k s =
      ((session_loop outcomes (k + 1) (critic_node (outcomes k) s)).1,
       (session_loop outcomes (k + 1) (critic_node (outcomes k) s)).2 + 1) := by
  rw [session_loop]
  simp [h]

lemma session_loop_neg (outcomes : Nat → Option Verification) (k : Nat)
    (s : CriticState) (h : ¬ should_refine (critic_node (outcomes k) s) = "synthesis") :
    session_loop outcomes k s = (critic_node (outcomes k) s, 1) := by
  rw [session_loop]
  simp [h]

lemma session_loop_spec (outcomes : Nat → Option Verification) (k : Nat)
    (s : CriticState) :
    (session_loop outcomes k s).1.iteration_count
        = s.iteration_count + (session_loop outcomes k s).2 ∧
      (session_loop outcomes k s).1.iteration_count
        ≤ max (s.iteration_count + 1) (s.max_iterations + 1) := by
  induction k, s using session_loop.induct outcomes with
  | case1 k s h hlt ih =>
      rw [session_loop_pos outcomes k s h]
      rw [critic_node_iteration_count, critic_node_max_iterations] at ih
      obtain ⟨ih1, ih2⟩ := ih
      constructor
      · simp only []
        omega
      · simp only []
        omega
  | case2 k s h =>
      rw [session_loop_neg outcomes k s h]
      refine ⟨rfl, ?_⟩
      rw [critic_node_iteration_count]
      omega

/-- C2: each critic pass increments `iteration_count` by exactly one; the
conditional edge routes back to synthesis iff, on the state the critic
node ran on, `iteration_count < max_iterations` and the produced
verification status is one of low/failed/unverified; and in any session
starting at `iteration_count = 0` the final `iteration_count` and the
number of critic runs are both at most `max_iterations + 1`. -/
theorem critic_refinement_loop_bounded :
    (∀ (out : Option Verification) (s : CriticState),
      (critic_node out s).iteration_count = s.iteration_count + 1) ∧
    (∀ (out : Option Verification) (s : CriticState),
      should_refine (critic_node out s) = "synthesis" ↔
        (s.iteration_count < s.max_iterations ∧
          (out.getD default_verification).verification_status ∈
            ["low", "failed", "unverified"])) ∧
    (∀ (outcomes : Nat → Option Verification) (s : CriticState),
      s.iteration_count = 0 →
        (session_loop outcomes 0 s).1.iteration_count ≤ s.max_iterations + 1 ∧
        (session_loop outcomes 0 s).2 ≤ s.max_iterations + 1) := by
  refine ⟨critic_node_iteration_count, should_refine_critic_node,
    fun outcomes s h0 => ?_⟩
  have hs := session_loop_spec outcomes 0 s
  omega

/-- Witness for C2 at a concrete session: a critic that always reports
"low" on a state with `max_iterations = 2` and `iteration_count = 0`. -/
theorem critic_refinement_loop_bounded_witness :
    (session_loop (fun _ => some { verification_status := "low", confidence_score := 0 })
        0 { iteration_count := 0, max_iterations := 2,
            needs_refinement := false, verification := none }).1.iteration_count ≤ 3 ∧
    (session_loop (fun _ => some { verification_status := "low", confidence_score := 0 })
        0 { iteration_count := 0, max_iterations := 2,
            needs_refinement := false, verification := none }).2 ≤ 3 :=
  critic_refinement_loop_bounded.2.2
    (fun _ => some { verification_status := "low", confidence_score := 0 })
    { iteration_count := 0, max_iterations := 2,
      needs_refinement := false, verification := none } rfl

/-- C10: when the critic agent raises inside `critic_node`, the node
substitutes the default verification (status "unknown", confidence 0.5),
still increments `iteration_count` by one, and this path never routes
back to synthesis: the conditional edge returns "end". -/
theorem critic_node_exception_path (s : CriticState) :
    (critic_node none s).verification = some default_verification ∧
    default_verification.verification_status = "unknown" ∧
    default_verification.confidence_score = 1/2 ∧
    (critic_node none s).iteration_count = s.iteration_count + 1 ∧
    should_refine (critic_node none s) = "end" := by
  refine ⟨rfl, rfl, rfl, rfl, ?_⟩
  simp [should_refine, critic_node, default_verification]

/-- C9: source normalization is idempotent: feeding the internal-typed
and the web-typed entries of `_normalize_sources` output back through
`_normalize_sources` returns the single-pass output unchanged. -/
theorem normalize_sources_idempotent (ints webs : List SrcDict) :
    normalize_sources
        ((normalize_sources ints webs).filter fun s => s.type = some "internal")
        ((normalize_sources ints webs).filter fun s => s.type = some "web") =
      normalize_sources ints webs := by
  have hfilter_int_keep :
      (ints.map normalize_internal).filter
          (fun s => decide (s.type = some "internal")) = ints.map normalize_internal := by
    rw [List.filter_eq_self]
    intro a ha
    obtain ⟨b, _, rfl⟩ := List.mem_map.mp ha
    simp [normalize_internal]
  have hfilter_int_drop :
      (webs.map normalize_web).filter
          (fun s => decide (s.type = some "internal")) = [] := by
    rw [List.filter_eq_nil_iff]
    intro a ha
    obtain ⟨b, _, rfl⟩ := List.mem_map.mp ha
    simp [normalize_web]
  have hfilter_web_drop :
      (ints.map normalize_internal).filter
          (fun s => decide (s.type = some "web")) = [] := by
    rw [List.filter_eq_nil_iff]
    intro a ha
    obtain ⟨b, _, rfl⟩ := List.mem_map.mp ha
    simp [normalize_internal]
  have hfilter_web_keep :
      (webs.map normalize_web).filter
          (fun s => decide (s.type = some "web")) = webs.map normalize_web := by
    rw [List.filter_eq_self]
    intro a ha
    obtain ⟨b, _, rfl⟩ := List.mem_map.mp ha
    simp [normalize_web]
  have hii : ∀ s, normalize_internal (normalize_internal s) = normalize_internal s :=
    fun s => rfl
  have hww : ∀ s, normalize_web (normalize_web s) = normalize_web s :=
    fun s => rfl
  simp only [normalize_sources, List.filter_append, hfilter_int_keep,
    hfilter_int_drop, hfilter_web_drop, hfilter_web_keep, List.append_nil,
    List.nil_append, List.map_map]
  rw [show normalize_internal ∘ normalize_internal = normalize_internal from funext hii,
    show normalize_web ∘ normalize_web = normalize_web from funext hww]

/- ------------------------------------------------------------------ -/
/- Stable descending sort (model of Python sorted(..., reverse=True)) -/
/- ------------------------------------------------------------------ -/

/-- Insert `x` into a descending-sorted list, after every element of
equal or larger key: this realizes the unique stable descending order
that Python's stable `sorted(..., key=key, reverse=True)` produces. -/
def insert_desc (key : α → Rat) (x : α) : List α → List α
  | [] => [x]
  | y :: ys => if key y < key x then x :: y :: ys else y :: insert_desc key x ys

/-- Stable sort by `key` descending, processing elements left to right. -/
def sort_desc (key : α → Rat) (l : List α) : List α :=
  l.foldl (fun acc x => insert_desc key x acc) []

lemma insert_desc_perm (key : α → Rat) (x : α) (l : List α) :
    List.Perm (insert_desc key x l) (x :: l) := by
  induction l with
  | nil => rfl
  | cons y ys ih =>
      by_cases h : key y < key x
      · simp [insert_desc, h]
      · simp only [insert_desc, if_neg h]
        exact (ih.cons y).trans (List.Perm.swap x y ys)

lemma mem_insert_desc {key : α → Rat} {x z : α} {l : List α} :
    z ∈ insert_desc key x l ↔ z = x ∨ z ∈ l := by
  rw [(insert_desc_perm key x l).mem_iff]
  simp

lemma foldl_insert_desc_perm (key : α → Rat) (l acc : List α) :
    List.Perm (l.foldl (fun acc x => insert_desc key x acc) acc) (acc ++ l) := by
  induction l generalizing acc with
  | nil => simp
  | cons x xs ih =>
      simp only [List.foldl_cons]
      refine (ih (insert_desc key x acc)).trans ?_
      refine (((insert_desc_perm key x acc).append_right xs).trans ?_)
      exact (List.perm_middle (a := x)).symm

lemma sort_desc_perm (key : α → Rat) (l : List α) :
    List.Perm (sort_desc key l) l := by
  simpa using foldl_insert_desc_perm key l []

lemma pairwise_of_total {R : α → α → Prop} (h : ∀ a b, R a b) (l : List α) :
    l.Pairwise R := by
  induction l with
  | nil => exact List.Pairwise.nil
  | cons x xs ih => exact List.Pairwise.cons (fun y _ => h x y) ih

lemma insert_desc_pairwise {R : α → α → Prop} {key : α → Rat}
    (hmono : ∀ a b, R a b → key b ≤ key a) {x : α} {l : List α}
    (hl : l.Pairwise R)
    (hgt : ∀ y ∈ l, key y < key x → R x y)
    (hle : ∀ y ∈ l, key x ≤ key y → R y x) :
    (insert_desc key x l).Pairwise R := by
  induction l with
  | nil => simp [insert_desc]
  | cons y ys ih =>
      obtain ⟨hy, hys⟩ := List.pairwise_cons.mp hl
      by_cases h : key y < key x
      · simp only [insert_desc, if_pos h]
        refine List.Pairwise.cons ?_ hl
        intro z hz
        rcases List.mem_cons.mp hz with rfl | hz2
        · exact hgt z (by simp) h
        · exact hgt z (List.mem_cons_of_mem y hz2)
            (lt_of_le_of_lt (hmono y z (hy z hz2)) h)
      · simp only [insert_desc, if_neg h]
        refine List.Pairwise.cons ?_
          (ih hys (fun z hz => hgt z (List.mem_cons_of_mem y hz))
            (fun z hz => hle z (List.mem_cons_of_mem y hz)))
        intro z hz
        rcases mem_insert_desc.mp hz with rfl | hz2
        · exact hle y (List.mem_cons_self y ys) (le_of_not_lt h)
        · exact hy z hz2

lemma foldl_insert_desc_pairwise {R : α → α → Prop} {key : α → Rat}
    (hmono : ∀ a b, R a b → key b ≤ key a) :
    ∀ (l acc : List α), acc.Pairwise R →
      (∀ a ∈ acc, ∀ b ∈ l, (key a < key b → R b a) ∧ (key b ≤ key a → R a b)) →
      l.Pairwise (fun a b => (key a < key b → R b a) ∧ (key b ≤ key a → R a b)) →
      (l.foldl (fun acc x => insert_desc key x acc) acc).Pairwise R := by
  intro l
  induction l with
  | nil =>
      intro acc hacc _ _
      simpa using hacc
  | cons x xs ih =>
      intro acc hacc hcross hl
      obtain ⟨hx, hxs⟩ := List.pairwise_cons.mp hl
      simp only [List.foldl_cons]
      apply ih
      · refine insert_desc_pairwise hmono hacc ?_ ?_
        · intro y hy hlt
          exact (hcross y hy x (List.mem_cons_self x xs)).1 hlt
        · intro y hy hxy
          exact (hcross y hy x (List.mem_cons_self x xs)).2 hxy
      · intro a ha b hb
        rcases mem_insert_desc.mp ha with rfl | ha2
        · exact hx b hb
        · exact hcross a ha2 b (List.mem_cons_of_mem x hb)
      · exact hxs

lemma sort_desc_sorted (key : α → Rat) (l : List α) :
    (sort_desc key l).Pairwise (fun a b => key b ≤ key a) := by
  refine foldl_insert_desc_pairwise (fun a b h => h) l [] List.Pairwise.nil
    (by intro a ha; exact absurd ha (List.not_mem_nil a)) ?_
  exact pairwise_of_total (fun a b => ⟨fun h => le_of_lt h, fun h => h⟩) l

lemma sort_desc_pairwise_lex (key : α → Rat) (pos : α → Nat) (l : List α)
    (hl : l.Pairwise (fun a b => pos a < pos b)) :
    (sort_desc key l).Pairwise
      (fun a b => key b < key a ∨ (key a = key b ∧ pos a < pos b)) := by
  refine foldl_insert_desc_pairwise ?_ l [] List.Pairwise.nil
    (by intro a ha; exact absurd ha (List.not_mem_nil a)) ?_
  · intro a b h
    rcases h with h | ⟨h, _⟩
    · exact le_of_lt h
    · exact le_of_eq h.symm
  · refine hl.imp ?_
    intro a b hpos
    constructor
    · intro hlt
      exact Or.inl hlt
    · intro hba
      rcases lt_or_eq_of_le hba with h | h
      · exact Or.inl h
      · exact Or.inr ⟨h.symm, hpos⟩

/- ------------------------------------------------------------------ -/
/- Web search agent (agents/web_search.py)                            -/
/- ------------------------------------------------------------------ -/

/-- A `WebSource` dataclass (web_search.py lines 17-27).  `date` models
the `date` field after ISO parsing as an age in days: `none` stands for
a missing or unparseable `published_date` (the `except: pass` path), and
`some d` for a date `d` days old (`d` may be negative for a future
date, exactly as `(now - pub_date).days` may be). -/
structure WebSrc where
  url : String
  title : String := ""
  content : String := ""
  date : Option Int := none
  score : Rat := 0
  relevance_score : Rat := 0
  deriving DecidableEq, Repr

/-- The recency boost inside `_deduplicate_and_rank`: +0.1 for temporal
queries whose source has a parseable date at most 30 days old. -/
def recency_boost (query_type : String) (date : Option Int) : Rat :=
  if query_type = "temporal" then
    match date with
    | some days_old => if days_old ≤ 30 then 1/10 else 0
    | none => 0
  else 0

/-- The content-length boost inside `_deduplicate_and_rank`:
`min(len(content) / 2000, 0.1)`. -/
def content_length_boost (content : String) : Rat :=
  min ((content.length : Rat) / 2000) (1/10)

/-- One pass of the ranking body: composite relevance score written into
`relevance_score`. -/
def rank_source (query_type : String) (s : WebSrc) : WebSrc :=
  { s with relevance_score :=
      s.score + recency_boost query_type s.date + content_length_boost s.content }

/-- The `seen_urls` loop of `_deduplicate_and_rank`: keep the first
occurrence of each URL, scoring it as it is kept (`seen` accumulates the
URLs already kept). -/
def dedup_by_url (query_type : String) : List WebSrc → List String → List WebSrc
  | [], _ => []
  | s :: rest, seen =>
      if s.url ∈ seen then dedup_by_url query_type rest seen
      else rank_source query_type s :: dedup_by_url query_type rest (s.url :: seen)

/-- `WebSearchAgent._deduplicate_and_rank` (web_search.py lines
248-282): URL dedup, composite scoring, stable sort by
`relevance_score` descending. -/
def deduplicate_and_rank (query_type : String) (sources : List WebSrc) : List WebSrc :=
  sort_desc (fun s => s.relevance_score) (dedup_by_url query_type sources [])

/-- The tail of `WebSearchAgent.run` (web_search.py lines 164-185): the
gathered per-search results are concatenated into `all_sources`,
deduplicated and ranked, and cut to `max_web_results`
(`constraints.get("max_web_results", 5)`). -/
def web_search_run_results (query_type : String) (all_sources : List WebSrc)
    (max_web_results : Nat := 5) : List WebSrc :=
  (deduplicate_and_rank query_type all_sources).take max_web_results

lemma dedup_by_url_urls_nodup (query_type : String) :
    ∀ (l : List WebSrc) (seen : List String),
      ((dedup_by_url query_type l seen).map (fun s => s.url)).Nodup ∧
      ∀ s ∈ dedup_by_url query_type l seen, s.url ∉ seen := by
  intro l
  induction l with
  | nil => simp [dedup_by_url]
  | cons s rest ih =>
      intro seen
      by_cases h : s.url ∈ seen
      · simp only [dedup_by_url, if_pos h]
        exact ih seen
      · simp only [dedup_by_url, if_neg h]
        obtain ⟨ihnodup, ihseen⟩ := ih (s.url :: seen)
        constructor
        · simp only [List.map_cons, List.nodup_cons]
          constructor
          · intro hmem
            obtain ⟨t, ht, hturl⟩ := List.mem_map.mp hmem
            have := ihseen t ht
            exact this (List.mem_cons.mpr (Or.inl (by simpa [rank_source] using hturl)))
          · exact ihnodup
        · intro t ht
          rcases List.mem_cons.mp ht with rfl | ht2
          · simpa [rank_source] using h
          · exact fun hmem => ihseen t ht2 (List.mem_cons_of_mem _ hmem)

lemma dedup_by_url_scores (query_type : String) :
    ∀ (l : List WebSrc) (seen : List String),
      ∀ s ∈ dedup_by_url query_type l seen,
        s.relevance_score =
          s.score + recency_boost query_type s.date + content_length_boost s.content := by
  intro l
  induction l with
  | nil => simp [dedup_by_url]
  | cons s rest ih =>
      intro seen t ht
      by_cases h : s.url ∈ seen
      · rw [dedup_by_url, if_pos h] at ht
        exact ih seen t ht
      · rw [dedup_by_url, if_neg h] at ht
        rcases List.mem_cons.mp ht with rfl | ht2
        · simp [rank_source]
        · exact ih (s.url :: seen) t ht2

/-- C8: the web-search result list is deduplicated by URL, every
returned source carries the composite relevance score
`provider score + recency boost + content-length boost`, the list is
sorted by `relevance_score` descending, and at most `max_web_results`
(default 5) entries are returned. -/
theorem web_search_rank_contract (query_type : String) (all_sources : List WebSrc)
    (max_web_results : Nat) :
    (((web_search_run_results query_type all_sources max_web_results).map
        (fun s => s.url)).Nodup) ∧
    (∀ s ∈ web_search_run_results query_type all_sources max_web_results,
      s.relevance_score =
        s.score + recency_boost query_type s.date + content_length_boost s.content) ∧
    ((web_search_run_results query_type all_sources max_web_results).Pairwise
      (fun a b => b.relevance_score ≤ a.relevance_score)) ∧
    (web_search_run_results query_type all_sources max_web_results).length
      ≤ max_web_results ∧
    (web_search_run_results query_type all_sources).length ≤ 5 := by
  have hperm := sort_desc_perm (fun s : WebSrc => s.relevance_score)
    (dedup_by_url query_type all_sources [])
  have hnodup := (dedup_by_url_urls_nodup query_type all_sources []).1
  have hsorted := sort_desc_sorted (fun s : WebSrc => s.relevance_score)
    (dedup_by_url query_type all_sources [])
  refine ⟨?_, ?_, ?_, ?_, ?_⟩
  · have hsub : (web_search_run_results query_type all_sources max_web_results).Sublist
        (sort_desc (fun s : WebSrc => s.relevance_score)
          (dedup_by_url query_type all_sources [])) :=
      List.take_sublist _ _
    exact List.Nodup.sublist (hsub.map (fun s : WebSrc => s.url))
      ((hperm.map (fun s : WebSrc => s.url)).nodup_iff.mpr hnodup)
  · intro s hs
    have hs2 : s ∈ sort_desc (fun s : WebSrc => s.relevance_score)
        (dedup_by_url query_type all_sources []) :=
      List.mem_of_mem_take hs
    exact dedup_by_url_scores query_type all_sources [] s (hperm.mem_iff.mp hs2)
  · exact hsorted.sublist (List.take_sublist _ _)
  · exact List.length_take_le _ _
  · exact List.length_take_le _ _

/- ------------------------------------------------------------------ -/
/- Hybrid search with RRF (services/search.py)                        -/
/- ------------------------------------------------------------------ -/

/-- A filter condition (`qdrant_client.models.FieldCondition`): either a
`MatchValue` equality or a `MatchAny` membership test on a payload key. -/
structure FieldCondition where
  key : String
  match_value : Option String := none
  match_any : Option (List String) := none
  deriving DecidableEq, Repr

/-- The `must_conditions` built in `search_with_rrf` (search.py lines
230-243): always the `user_id` equality condition, and additionally a
`document_id ∈ document_ids` condition when `document_ids` is truthy
(a non-`None`, non-empty list). -/
def build_rrf_filter (user_id : String) (document_ids : Option (List String)) :
    List FieldCondition :=
  let base := [{ key := "user_id", match_value := some user_id : FieldCondition }]
  match document_ids with
  | some (d :: ds) =>
      base ++ [{ key := "document_id", match_any := some (d :: ds) : FieldCondition }]
  | _ => base

/-- A `query_points` request as issued by `search_with_rrf`: the vector
slot, the `limit`, and the payload filter. -/
structure QdrantQuery where
  using_vector : String
  limit : Nat
  query_filter : List FieldCondition
  deriving DecidableEq, Repr

/-- The dense candidate query of `search_with_rrf` (search.py lines
245-255): `limit = candidate_limit = top_k * 3`. -/
def rrf_dense_query (top_k : Nat) (user_id : String)
    (document_ids : Option (List String)) : QdrantQuery :=
  { using_vector := "dense", limit := top_k * 3,
    query_filter := build_rrf_filter user_id document_ids }

/-- The sparse candidate query of `search_with_rrf` (search.py lines
257-264): `limit = candidate_limit = top_k * 3`. -/
def rrf_sparse_query (top_k : Nat) (user_id : String)
    (document_ids : Option (List String)) : QdrantQuery :=
  { using_vector := "sparse", limit := top_k * 3,
    query_filter := build_rrf_filter user_id document_ids }

/-- `document_ids` as it reaches retrieval on the chat-stream path:
`send_chat_query_stream` (api/chats.py lines 597-604) forwards
`request.document_ids` to `Orchestrator.research_stream_with_context`,
which places it verbatim in the retrieval context (orchestrator.py line
746), and `RetrievalAgent.run` (retrieval.py lines 25-38) passes it on
to `search_with_rrf`.  `chat_documents` — the ids of the documents whose
`chat_id` is the chat's — is listed as a parameter to make the
tenant-scoping claim statable, but no code on this path ever consults
it: the caller-supplied list is used as-is. -/
def used_document_ids (request_document_ids : Option (List String))
    (chat_documents : List String) : Option (List String) :=
  request_document_ids

/-- A point returned by a Qdrant `query_points` call: its id, its
similarity score and the payload fields that `search_with_rrf` reads. -/
structure ScoredPoint where
  id : String
  score : Rat
  document_id : String := ""
  content : String := ""
  deriving DecidableEq, Repr

/-- `rrf_scores[point_id] = rrf_scores.get(point_id, 0) + v` on an
insertion-ordered dict modelled as an association list: update in place,
else append. -/
def upsert_add (k : String) (v : Rat) : List (String × Rat) → List (String × Rat)
  | [] => [(k, v)]
  | (k0, v0) :: rest =>
      if k0 = k then (k0, v0 + v) :: rest else (k0, v0) :: upsert_add k v rest

/-- One `for rank, point in enumerate(points, start=1)` accumulation
loop of `search_with_rrf`, adding `1 / (RRF_K + rank)` with
`RRF_K = 60`. -/
def add_ranks : List ScoredPoint → Nat → List (String × Rat) → List (String × Rat)
  | [], _, acc => acc
  | p :: rest, rank, acc =>
      add_ranks rest (rank + 1) (upsert_add p.id (1 / (60 + rank : Rat)) acc)

/-- The fused `rrf_scores` dict after both loops: dense results first
(ranks 1..), then sparse results (ranks 1..). -/
def rrf_scores (dense sparse : List ScoredPoint) : List (String × Rat) :=
  add_ranks sparse 1 (add_ranks dense 1 [])

/-- The per-point payload record kept in `point_data`. -/
structure PointData where
  document_id : String := ""
  content : String := ""
  dense_score : Option Rat := none
  sparse_score : Option Rat := none
  deriving DecidableEq, Repr

/-- The dense `point_data` update: first occurrence stores the payload
and its dense score, later occurrences overwrite `dense_score`. -/
def upd_dense (p : ScoredPoint) : List (String × PointData) → List (String × PointData)
  | [] => [(p.id, { document_id := p.document_id, content := p.content,
                    dense_score := some p.score })]
  | (k, d) :: rest =>
      if k = p.id then (k, { d with dense_score := some p.score }) :: rest
      else (k, d) :: upd_dense p rest

/-- The sparse `point_data` update. -/
def upd_sparse (p : ScoredPoint) : List (String × PointData) → List (String × PointData)
  | [] => [(p.id, { document_id := p.document_id, content := p.content,
                    sparse_score := some p.score })]
  | (k, d) :: rest =>
      if k = p.id then (k, { d with sparse_score := some p.score }) :: rest
      else (k, d) :: upd_sparse p rest

/-- The `point_data` dict after both loops. -/
def point_data (dense sparse : List ScoredPoint) : List (String × PointData) :=
  sparse.foldl (fun acc p => upd_sparse p acc)
    (dense.foldl (fun acc p => upd_dense p acc) [])

/-- A `SearchResult` as built by `search_with_rrf`: the `score` field
and the `metadata["rrf_score"]` entry both receive the fused score;
`metadata["dense_score"]` / `metadata["sparse_score"]` carry the
per-retriever scores when present. -/
structure RRFSearchResult where
  chunk_id : String
  document_id : String
  content : String
  rrf_score : Rat
  dense_score : Option Rat := none
  sparse_score : Option Rat := none
  score : Rat
  deriving DecidableEq, Repr

/-- The fusion tail of `search_with_rrf` (search.py lines 266-316) as a
function of the two candidate lists: accumulate `rrf_scores` and
`point_data`, sort the candidate ids by fused score descending (Python's
`sorted` is stable, realized here by the stable `sort_desc`), take
`top_k`, and attach payload and scores. -/
def search_with_rrf_fuse (top_k : Nat) (dense sparse : List ScoredPoint) :
    List RRFSearchResult :=
  let scores := rrf_scores dense sparse
  let pdata := point_data dense sparse
  ((sort_desc (fun e => e.2) scores).take top_k).map fun e =>
    let d := (List.lookup e.1 pdata).getD {}
    { chunk_id := e.1, document_id := d.document_id, content := d.content,
      rrf_score := e.2, dense_score := d.dense_score,
      sparse_score := d.sparse_score, score := e.2 }

/-- The total RRF contribution of id `id` in a single ranked list whose
first element has rank `rank`: the sum of `1 / (60 + r)` over the ranks
`r` at which `id` occurs. -/
def rank_contribution : List ScoredPoint → Nat → String → Rat
  | [], _, _ => 0
  | p :: rest, rank, id =>
      (if p.id = id then 1 / (60 + rank : Rat) else 0)
        + rank_contribution rest (rank + 1) id

/-- The fused score of the claim: contribution from the dense list plus
contribution from the sparse list, each at 1-based ranks. -/
def fused_score (dense sparse : List ScoredPoint) (id : String) : Rat :=
  rank_contribution dense 1 id + rank_contribution sparse 1 id

/-- The position of an id in the candidate table (first-appearance
order: dense candidates in rank order, then sparse-only candidates). -/
def key_index : List (String × Rat) → String → Nat
  | [], _ => 0
  | (k, _) :: rest, id => if k = id then 0 else key_index rest id + 1

lemma lookup_cons_eq {β : Type} (k : String) (v1 : β) (rest : List (String × β)) :
    List.lookup k ((k, v1) :: rest) = some v1 := by
  simp [List.lookup]

lemma lookup_cons_ne {β : Type} (k k1 : String) (v1 : β) (rest : List (String × β))
    (h : ¬ k = k1) : List.lookup k ((k1, v1) :: rest) = List.lookup k rest := by
  have hb : (k == k1) = false := beq_eq_false_iff_ne.mpr h
  simp [List.lookup, hb]

lemma lookup_upsert_add (k k0 : String) (v : Rat) (l : List (String × Rat)) :
    (List.lookup k (upsert_add k0 v l)).getD 0 =
      (List.lookup k l).getD 0 + if k = k0 then v else 0 := by
  induction l with
  | nil =>
      by_cases h : k = k0
      · subst h
        simp [upsert_add, lookup_cons_eq]
      · simp [upsert_add, lookup_cons_ne k k0 v [] h, h, List.lookup_nil]
  | cons e rest ih =>
      obtain ⟨k1, v1⟩ := e
      by_cases h1 : k1 = k0
      · subst h1
        by_cases h2 : k = k1
        · subst h2
          simp [upsert_add, lookup_cons_eq]
        · simp [upsert_add, lookup_cons_ne k k1 _ _ h2, h2]
      · by_cases h2 : k = k1
        · subst h2
          simp [upsert_add, if_neg h1, lookup_cons_eq, h1]
        · simp only [upsert_add, if_neg h1, lookup_cons_ne k k1 v1 _ h2,
            lookup_cons_ne k k1 v1 rest h2]
          exact ih

lemma keys_upsert_add (k0 : String) (v : Rat) (l : List (String × Rat)) :
    (upsert_add k0 v l).map Prod.fst =
      if k0 ∈ l.map Prod.fst then l.map Prod.fst else l.map Prod.fst ++ [k0] := by
  induction l with
  | nil => simp [upsert_add]
  | cons e rest ih =>
      obtain ⟨k1, v1⟩ := e
      by_cases h1 : k1 = k0
      · subst h1
        simp [upsert_add]
      · simp only [upsert_add, if_neg h1, List.map_cons, ih]
        by_cases h2 : k0 ∈ rest.map Prod.fst <;>
          simp [h2, Ne.symm h1]

lemma keys_nodup_upsert_add (k0 : String) (v : Rat) (l : List (String × Rat))
    (h : (l.map Prod.fst).Nodup) : ((upsert_add k0 v l).map Prod.fst).Nodup := by
  rw [keys_upsert_add]
  by_cases h2 : k0 ∈ l.map Prod.fst
  · simpa [h2] using h
  · simp only [if_neg h2]
    exact List.Nodup.append h (List.nodup_singleton k0)
      (by simpa [List.disjoint_singleton] using h2)

lemma mem_keys_upsert_add (k k0 : String) (v : Rat) (l : List (String × Rat)) :
    k ∈ (upsert_add k0 v l).map Prod.fst ↔ k = k0 ∨ k ∈ l.map Prod.fst := by
  rw [keys_upsert_add]
  by_cases h2 : k0 ∈ l.map Prod.fst
  · simp only [if_pos h2]
    constructor
    · exact fun h => Or.inr h
    · rintro (rfl | h)
      · exact h2
      · exact h
  · simp only [if_neg h2, List.mem_append, List.mem_singleton]
    tauto

lemma lookup_add_ranks (pts : List ScoredPoint) :
    ∀ (rank : Nat) (acc : List (String × Rat)) (k : String),
      (List.lookup k (add_ranks pts rank acc)).getD 0 =
        (List.lookup k acc).getD 0 + rank_contribution pts rank k := by
  induction pts with
  | nil => simp [add_ranks, rank_contribution]
  | cons p rest ih =>
      intro rank acc k
      simp only [add_ranks, rank_contribution, ih, lookup_upsert_add]
      by_cases h : k = p.id
      · simp only [if_pos h, if_pos h.symm]
        ring
      · have hsym : ¬ p.id = k := fun hp => h hp.symm
        simp only [if_neg h, if_neg hsym]
        ring

lemma keys_nodup_add_ranks (pts : List ScoredPoint) :
    ∀ (rank : Nat) (acc : List (String × Rat)),
      ((acc.map Prod.fst).Nodup) → ((add_ranks pts rank acc).map Prod.fst).Nodup := by
  induction pts with
  | nil => simp [add_ranks]
  | cons p rest ih =>
      intro rank acc h
      exact ih (rank + 1) _ (keys_nodup_upsert_add p.id _ acc h)

lemma mem_keys_add_ranks (pts : List ScoredPoint) :
    ∀ (rank : Nat) (acc : List (String × Rat)) (k : String),
      k ∈ (add_ranks pts rank acc).map Prod.fst ↔
        k ∈ acc.map Prod.fst ∨ k ∈ pts.map (fun p => p.id) := by
  induction pts with
  | nil => simp [add_ranks]
  | cons p rest ih =>
      intro rank acc k
      simp only [add_ranks, ih, mem_keys_upsert_add, List.map_cons, List.mem_cons]
      tauto

lemma lookup_of_mem_keys_nodup {β : Type} {l : List (String × β)} {e : String × β}
    (hnodup : (l.map Prod.fst).Nodup) (h : e ∈ l) :
    List.lookup e.1 l = some e.2 := by
  induction l with
  | nil => exact absurd h (List.not_mem_nil e)
  | cons f rest ih =>
      rw [List.map_cons] at hnodup
      obtain ⟨hf, hrest⟩ := List.nodup_cons.mp hnodup
      rcases List.mem_cons.mp h with rfl | h2
      · exact lookup_cons_eq e.1 e.2 rest
      · have hne : ¬ e.1 = f.1 := by
          intro heq
          exact hf (heq ▸ List.mem_map_of_mem Prod.fst h2)
        rw [show f = (f.1, f.2) from rfl, lookup_cons_ne e.1 f.1 f.2 rest hne]
        exact ih hrest h2

lemma rank_contribution_nonneg (pts : List ScoredPoint) :
    ∀ (rank : Nat) (id : String), 0 ≤ rank_contribution pts rank id := by
  induction pts with
  | nil => simp [rank_contribution]
  | cons p rest ih =>
      intro rank id
      have h1 : (0 : Rat) ≤ 1 / (60 + rank : Rat) := by positivity
      have h2 := ih (rank + 1) id
      by_cases h : p.id = id
      · simp only [rank_contribution, if_pos h]
        linarith
      · simp only [rank_contribution, if_neg h]
        linarith

lemma rank_contribution_pos (pts : List ScoredPoint) :
    ∀ (rank : Nat) (id : String), id ∈ pts.map (fun p => p.id) →
      0 < rank_contribution pts rank id := by
  induction pts with
  | nil => simp
  | cons p rest ih =>
      intro rank id hmem
      have h2 := rank_contribution_nonneg rest (rank + 1) id
      rw [List.map_cons] at hmem
      rcases List.mem_cons.mp hmem with heq | hmem2
      · have h1 : (0 : Rat) < 1 / (60 + rank : Rat) := by positivity
        simp only [rank_contribution, if_pos heq.symm]
        linarith
      · have h3 := ih (rank + 1) id hmem2
        have h1 : (0 : Rat) ≤ if p.id = id then 1 / (60 + rank : Rat) else 0 := by
          by_cases hp : p.id = id
          · simp only [if_pos hp]
            positivity
          · simp [hp]
        simp only [rank_contribution]
        linarith

lemma rrf_scores_keys_nodup (dense sparse : List ScoredPoint) :
    ((rrf_scores dense sparse).map Prod.fst).Nodup :=
  keys_nodup_add_ranks sparse 1 _ (keys_nodup_add_ranks dense 1 [] (by simp))

lemma rrf_scores_entry (dense sparse : List ScoredPoint) :
    ∀ e ∈ rrf_scores dense sparse, e.2 = fused_score dense sparse e.1 := by
  intro e he
  have h1 := lookup_of_mem_keys_nodup (rrf_scores_keys_nodup dense sparse) he
  have h2 : (List.lookup e.1 (rrf_scores dense sparse)).getD 0 = e.2 := by
    rw [h1]
    rfl
  have h3 : (List.lookup e.1 (rrf_scores dense sparse)).getD 0
      = (List.lookup e.1 (add_ranks dense 1 [])).getD 0
        + rank_contribution sparse 1 e.1 :=
    lookup_add_ranks sparse 1 (add_ranks dense 1 []) e.1
  have h4 : (List.lookup e.1 (add_ranks dense 1 [])).getD 0
      = (List.lookup e.1 ([] : List (String × Rat))).getD 0
        + rank_contribution dense 1 e.1 :=
    lookup_add_ranks dense 1 [] e.1
  have h5 : (List.lookup e.1 ([] : List (String × Rat))).getD 0 = 0 := rfl
  rw [fused_score, ← h2, h3, h4, h5]
  ring

lemma rrf_scores_mem_keys (dense sparse : List ScoredPoint) (k : String) :
    k ∈ (rrf_scores dense sparse).map Prod.fst ↔
      k ∈ dense.map (fun p => p.id) ∨ k ∈ sparse.map (fun p => p.id) := by
  unfold rrf_scores
  rw [mem_keys_add_ranks, mem_keys_add_ranks]
  simp only [List.map_nil, List.not_mem_nil, false_or]

lemma key_index_pairwise {l : List (String × Rat)} (h : (l.map Prod.fst).Nodup) :
    l.Pairwise (fun e1 e2 => key_index l e1.1 < key_index l e2.1) := by
  induction l with
  | nil => exact List.Pairwise.nil
  | cons f rest ih =>
      obtain ⟨k1, v1⟩ := f
      rw [List.map_cons] at h
      obtain ⟨hf, hrest⟩ := List.nodup_cons.mp h
      refine List.Pairwise.cons ?_ ?_
      · intro e2 he2
        have hne : ¬ k1 = e2.1 := fun heq => hf (by
          rw [heq]
          exact List.mem_map.mpr ⟨e2, he2, rfl⟩)
        simp [key_index, hne]
      · refine List.Pairwise.imp_of_mem ?_ (ih hrest)
        intro a b ha hb hab
        have hna : ¬ k1 = a.1 := fun heq => hf (by
          rw [heq]
          exact List.mem_map.mpr ⟨a, ha, rfl⟩)
        have hnb : ¬ k1 = b.1 := fun heq => hf (by
          rw [heq]
          exact List.mem_map.mpr ⟨b, hb, rfl⟩)
        simpa [key_index, hna, hnb] using hab

/-- C7 (amended): the ranked list returned by `search_with_rrf` is in
stable order by (`rrf_score` descending, first-appearance ascending):
ties are broken by the order in which candidates first entered the fused
score table (dense results in rank order, then sparse-only results in
rank order), not by `chunk_id`. -/
theorem search_rrf_order_stable (top_k : Nat) (dense sparse : List ScoredPoint) :
    (search_with_rrf_fuse top_k dense sparse).Pairwise (fun a b =>
      b.score < a.score ∨ (a.score = b.score ∧
        key_index (rrf_scores dense sparse) a.chunk_id
          < key_index (rrf_scores dense sparse) b.chunk_id)) := by
  have hpw := sort_desc_pairwise_lex (fun e : String × Rat => e.2)
      (fun e : String × Rat => key_index (rrf_scores dense sparse) e.1)
      (rrf_scores dense sparse) (key_index_pairwise (rrf_scores_keys_nodup dense sparse))
  have htake := hpw.sublist (List.take_sublist top_k _)
  unfold search_with_rrf_fuse
  rw [List.pairwise_map]
  exact htake.imp (fun h => h)

/-- C7 counterexample: with one dense candidate "b" and one sparse
candidate "a" the fused scores tie at 1/61, and the returned order is
["b", "a"] (dense first-appearance), not `chunk_id` ascending. -/
theorem search_rrf_tie_break_counterexample :
    ¬ ((search_with_rrf_fuse 10
          [{ id := "b", score := 9/10 }]
          [{ id := "a", score := 8/10 }]).Pairwise (fun a b =>
        b.score < a.score ∨ (a.score = b.score ∧ a.chunk_id < b.chunk_id))) := by
  with_unfolding_all decide

/-- C1 (amended): both candidate queries of `search_with_rrf` carry the
`user_id` equality filter condition for every input (so retrieved chunks
always belong to the calling user), but the `document_ids` reaching
retrieval on the chat-stream path is the caller-supplied list unchanged:
no chat-scoped replacement takes place. -/
theorem retrieval_user_id_filter (top_k : Nat) (user_id : String)
    (document_ids : Option (List String)) (chat_documents : List String) :
    ({ key := "user_id", match_value := some user_id : FieldCondition }
        ∈ (rrf_dense_query top_k user_id document_ids).query_filter) ∧
    ({ key := "user_id", match_value := some user_id : FieldCondition }
        ∈ (rrf_sparse_query top_k user_id document_ids).query_filter) ∧
    used_document_ids document_ids chat_documents = document_ids := by
  refine ⟨?_, ?_, rfl⟩ <;>
  · cases document_ids with
    | none => simp [rrf_dense_query, rrf_sparse_query, build_rrf_filter]
    | some l =>
        cases l with
        | nil => simp [rrf_dense_query, rrf_sparse_query, build_rrf_filter]
        | cons d ds => simp [rrf_dense_query, rrf_sparse_query, build_rrf_filter]

/-- C1 counterexample: the claim that the caller-supplied
`document_ids` list is replaced by the chat-owned document set fails:
with caller list ["dX"] and chat-owned set ["dY"], retrieval still runs
on ["dX"]. -/
theorem tenant_scope_counterexample :
    used_document_ids (some ["dX"]) ["dY"] ≠ some ["dY"] := by decide

lemma rank_contribution_zero_of_not_mem (pts : List ScoredPoint) :
    ∀ (rank : Nat) (id : String), id ∉ pts.map (fun p => p.id) →
      rank_contribution pts rank id = 0 := by
  induction pts with
  | nil => simp [rank_contribution]
  | cons p rest ih =>
      intro rank id hmem
      rw [List.map_cons] at hmem
      have h1 : ¬ p.id = id := fun h => hmem (by
        rw [← h]
        exact List.mem_cons_self _ _)
      have h2 : id ∉ rest.map (fun p => p.id) := fun h => hmem (List.mem_cons_of_mem _ h)
      simp [rank_contribution, h1, ih (rank + 1) id h2]

lemma rank_contribution_at (pts : List ScoredPoint)
    (h : (pts.map (fun p => p.id)).Nodup) :
    ∀ (i : Nat) (hi : i < pts.length) (rank : Nat),
      rank_contribution pts rank (pts.get ⟨i, hi⟩).id = 1 / (60 + rank + i : Rat) := by
  induction pts with
  | nil => intro i hi; exact absurd hi (by simp)
  | cons p rest ih =>
      rw [List.map_cons] at h
      obtain ⟨hp, hrest⟩ := List.nodup_cons.mp h
      intro i hi rank
      cases i with
      | zero =>
          have h0 : rank_contribution rest (rank + 1) p.id = 0 :=
            rank_contribution_zero_of_not_mem rest (rank + 1) p.id hp
          simp [rank_contribution, h0]
      | succ j =>
          have hj : j < rest.length := by simpa using hi
          have hne : ¬ p.id = (rest.get ⟨j, hj⟩).id := by
            intro heq
            exact hp (by
              rw [heq]
              exact List.mem_map.mpr ⟨rest.get ⟨j, hj⟩, rest.get_mem _ _, rfl⟩)
          have hr := ih hrest j hj (rank + 1)
          simp only [List.get_cons_succ, rank_contribution, if_neg hne, zero_add, hr]
          congr 1
          push_cast
          ring

/-- C3: the dense and sparse candidate queries are issued with
`limit = top_k * 3`; a candidate appearing at 1-based rank `r` in a list
contributes `1 / (60 + r)` there, and its fused score is the sum of its
per-list contributions; the returned list carries the fused score in its
`score` field (and in `metadata["rrf_score"]`), is sorted by fused score
descending, has length `min top_k #candidates`, and every omitted
candidate scores no higher than any returned one; and a candidate
present in both lists is fused strictly above either single-list
contribution.  The `Nodup` hypotheses state that each Qdrant query
returns each point id at most once. -/
theorem rrf_fusion_correct (top_k : Nat) (user_id : String)
    (document_ids : Option (List String)) (dense sparse : List ScoredPoint)
    (hdense : (dense.map (fun p => p.id)).Nodup)
    (hsparse : (sparse.map (fun p => p.id)).Nodup) :
    (rrf_dense_query top_k user_id document_ids).limit = top_k * 3 ∧
    (rrf_sparse_query top_k user_id document_ids).limit = top_k * 3 ∧
    (∀ (i : Nat) (hi : i < dense.length) (rank : Nat),
      rank_contribution dense rank (dense.get ⟨i, hi⟩).id = 1 / (60 + rank + i : Rat)) ∧
    (∀ (i : Nat) (hi : i < sparse.length) (rank : Nat),
      rank_contribution sparse rank (sparse.get ⟨i, hi⟩).id = 1 / (60 + rank + i : Rat)) ∧
    (∀ e ∈ rrf_scores dense sparse, e.2 = fused_score dense sparse e.1) ∧
    (∀ r ∈ search_with_rrf_fuse top_k dense sparse,
      r.score = fused_score dense sparse r.chunk_id ∧ r.rrf_score = r.score) ∧
    ((search_with_rrf_fuse top_k dense sparse).Pairwise fun a b => b.score ≤ a.score) ∧
    (search_with_rrf_fuse top_k dense sparse).length
        = min top_k (rrf_scores dense sparse).length ∧
    (∀ r ∈ search_with_rrf_fuse top_k dense sparse, ∀ id,
      (id ∈ dense.map (fun p => p.id) ∨ id ∈ sparse.map (fun p => p.id)) →
      id ∉ (search_with_rrf_fuse top_k dense sparse).map (fun r => r.chunk_id) →
      fused_score dense sparse id ≤ r.score) ∧
    (∀ id, id ∈ dense.map (fun p => p.id) → id ∈ sparse.map (fun p => p.id) →
      rank_contribution dense 1 id < fused_score dense sparse id ∧
      rank_contribution sparse 1 id < fused_score dense sparse id) := by
  have hperm := sort_desc_perm (fun e : String × Rat => e.2) (rrf_scores dense sparse)
  have hsorted := sort_desc_sorted (fun e : String × Rat => e.2) (rrf_scores dense sparse)
  refine ⟨rfl, rfl, rank_contribution_at dense hdense, rank_contribution_at sparse hsparse,
    rrf_scores_entry dense sparse, ?_, ?_, ?_, ?_, ?_⟩
  · intro r hr
    unfold search_with_rrf_fuse at hr
    obtain ⟨e, he, rfl⟩ := List.mem_map.mp hr
    have he2 : e ∈ rrf_scores dense sparse :=
      hperm.mem_iff.mp (List.mem_of_mem_take he)
    exact ⟨rrf_scores_entry dense sparse e he2, rfl⟩
  · unfold search_with_rrf_fuse
    rw [List.pairwise_map]
    exact (hsorted.sublist (List.take_sublist top_k _)).imp (fun h => h)
  · unfold search_with_rrf_fuse
    rw [List.length_map, List.length_take, hperm.length_eq]
  · intro r hr id hid hnotin
    obtain ⟨e2, he2, he2id⟩ := List.mem_map.mp
      ((rrf_scores_mem_keys dense sparse id).mpr hid)
    have he2s : e2 ∈ sort_desc (fun e : String × Rat => e.2) (rrf_scores dense sparse) :=
      hperm.mem_iff.mpr he2
    rw [← List.take_append_drop top_k
      (sort_desc (fun e : String × Rat => e.2) (rrf_scores dense sparse))] at he2s
    rcases List.mem_append.mp he2s with htk | hdrop
    · exfalso
      apply hnotin
      unfold search_with_rrf_fuse
      rw [List.map_map]
      exact List.mem_map.mpr ⟨e2, htk, he2id⟩
    · unfold search_with_rrf_fuse at hr
      obtain ⟨e1, he1, rfl⟩ := List.mem_map.mp hr
      have hcross : ∀ a ∈ (sort_desc (fun e : String × Rat => e.2)
            (rrf_scores dense sparse)).take top_k,
          ∀ b ∈ (sort_desc (fun e : String × Rat => e.2)
            (rrf_scores dense sparse)).drop top_k, b.2 ≤ a.2 := by
        have hs2 := hsorted
        rw [← List.take_append_drop top_k
          (sort_desc (fun e : String × Rat => e.2) (rrf_scores dense sparse))] at hs2
        exact (List.pairwise_append.mp hs2).2.2
      have hle := hcross e1 he1 e2 hdrop
      have hfe2 : e2.2 = fused_score dense sparse id := by
        rw [rrf_scores_entry dense sparse e2 he2, he2id]
      rw [← hfe2]
      exact hle
  · intro id hd hs
    have hdpos := rank_contribution_pos dense 1 id hd
    have hspos := rank_contribution_pos sparse 1 id hs
    unfold fused_score
    constructor <;> linarith

/-- Witness for C3: a single dense candidate "a" (rank 1) and a single
sparse candidate "b" (rank 1), duplicate-free lists. -/
theorem rrf_fusion_correct_witness :
    (([{ id := "a", score := 1 }] : List ScoredPoint).map (fun p => p.id)).Nodup ∧
    (([{ id := "b", score := 1 }] : List ScoredPoint).map (fun p => p.id)).Nodup ∧
    (∀ e ∈ rrf_scores [{ id := "a", score := 1 }] [{ id := "b", score := 1 }],
      e.2 = fused_score [{ id := "a", score := 1 }] [{ id := "b", score := 1 }] e.1) :=
  ⟨by decide, by decide,
    (rrf_fusion_correct 1 "u" none
      [{ id := "a", score := 1 }] [{ id := "b", score := 1 }]
      (by decide) (by decide)).2.2.2.2.1⟩

/- ------------------------------------------------------------------ -/
/- Planner agent (agents/planner.py)                                  -/
/- ------------------------------------------------------------------ -/

/-- A step dict inside the parsed planner JSON; `none` models a missing
key (recovered by `s.get("tool", "rag")` / `s.get("description", "")`). -/
structure StepDict where
  tool : Option String := none
  description : Option String := none
  deriving DecidableEq, Repr

/-- The `constraints` keys the planner's default plans mention. -/
structure PlanConstraints where
  citations_required : Option Bool := none
  max_sources : Option Nat := none
  deriving DecidableEq, Repr

/-- The parsed planner JSON object. -/
structure PlanDict where
  subtasks : Option (List String) := none
  steps : Option (List StepDict) := none
  constraints : Option PlanConstraints := none
  deriving DecidableEq, Repr

/-- An `ExecutionStep` (agent_models.py lines 101-106); `parameters` is
never read by the code under verification and is omitted. -/
structure ExecutionStep where
  tool : String := "rag"
  description : String := ""
  deriving DecidableEq, Repr

/-- An `ExecutionPlan` (agent_models.py lines 109-115). -/
structure ExecutionPlan where
  subtasks : List String := []
  steps : List ExecutionStep := []
  constraints : PlanConstraints := {}
  deriving DecidableEq, Repr

/-- The default steps the planner writes when the parsed response lacks
a "steps" field (planner.py lines 103-118). -/
def default_plan_steps : List StepDict :=
  [ { tool := some "rag", description := some "Search internal documents" },
    { tool := some "synthesis", description := some "Synthesize answer" } ]

/-- The parse-and-validate tail of `PlannerAgent.run` (planner.py lines
98-166) as a function of the outcome of `_parse_json_response`:
`none` models a `json.JSONDecodeError` raised after all recovery
strategies, `some d` a successfully parsed dict. -/
def planner_run (parsed : Option PlanDict) : ExecutionPlan :=
  let plan_dict : PlanDict :=
    match parsed with
    | some d =>
        { subtasks := some (d.subtasks.getD ["Answer the user query"])
          steps := some (d.steps.getD default_plan_steps)
          constraints := some (d.constraints.getD {}) }
    | none =>
        { subtasks := some ["Answer the user query"]
          steps := some default_plan_steps
          constraints := some { citations_required := some true,
                                max_sources := some 10 } }
  { subtasks := plan_dict.subtasks.getD []
    steps := (plan_dict.steps.getD []).map fun s =>
      { tool := s.tool.getD "rag", description := s.description.getD "" }
    constraints := plan_dict.constraints.getD {} }

/-- C5 counterexample: a well-formed LLM response whose `steps` list
contains a single rag step is used verbatim, so the returned plan has no
synthesis step. -/
theorem planner_synthesis_counterexample :
    ¬ ∃ step ∈ (planner_run (some { steps := some [{ tool := some "rag" }] })).steps,
        step.tool = "synthesis" := by
  decide

/-- C5 (amended): the returned plan is guaranteed to contain a synthesis
step when the LLM response is unparseable or lacks the `steps` field;
a well-formed response with a `steps` list is used verbatim and need not
contain one. -/
theorem planner_default_plan_has_synthesis (parsed : Option PlanDict)
    (h : parsed = none ∨ ∃ d, parsed = some d ∧ d.steps = none) :
    ∃ step ∈ (planner_run parsed).steps, step.tool = "synthesis" := by
  rcases h with rfl | ⟨d, rfl, hd⟩
  · exact ⟨{ tool := "synthesis", description := "Synthesize answer" }, by decide⟩
  · refine ⟨{ tool := "synthesis", description := "Synthesize answer" }, ?_, rfl⟩
    simp [planner_run, hd, default_plan_steps]

/-- Witness for C5 (amended) at the unparseable-response input. -/
theorem planner_default_plan_has_synthesis_witness :
    ∃ step ∈ (planner_run none).steps, step.tool = "synthesis" :=
  planner_default_plan_has_synthesis none (Or.inl rfl)

/- ------------------------------------------------------------------ -/
/- Python set of small ints (model for list(set(...)))                -/
/- ------------------------------------------------------------------ -/

/-- A CPython set of `Nat`s, modelled as an open-addressing hash table:
`hash(n) = n`, an initial table of 8 slots, first probe at
`hash mod size`, iteration in slot order, and growth into a doubled
table when the table is full.  Two simplifications against CPython are
deliberate and documented: CPython perturbs the probe sequence after the
first slot (we probe linearly), and CPython grows at 3/5 load (we grow
when full).  Neither affects the duplicate-freedom and membership
theorems proved below — they hold for any open-addressing policy — and
on the concrete two-element counterexample input used for C6 the
model's iteration order provably coincides with CPython's (9 lands in
slot 1, 1 collides there and probes to a later slot, so iteration
yields [9, 1]). -/
def table_probe (x : Nat) : Nat → List (Option Nat) → Nat → List (Option Nat)
  | 0, t, _ => t
  | fuel + 1, t, i =>
      match t.get? i with
      | none => t
      | some none => t.set i (some x)
      | some (some y) => if y = x then t else table_probe x fuel t ((i + 1) % t.length)

/-- The stored elements in slot order: this is what `list(s)` sees. -/
def table_elems (t : List (Option Nat)) : List Nat := t.filterMap id

/-- Insert by probing from `hash mod size` with enough fuel to scan the
whole table. -/
def table_insert_raw (t : List (Option Nat)) (x : Nat) : List (Option Nat) :=
  table_probe x t.length t (x % t.length)

/-- Rebuild the table into `n` fresh slots, reinserting the stored
elements in slot order. -/
def table_rehash (t : List (Option Nat)) (n : Nat) : List (Option Nat) :=
  (table_elems t).foldl table_insert_raw (List.replicate n none)

/-- One `set.add`: grow first when the table is full. -/
def table_insert (t : List (Option Nat)) (x : Nat) : List (Option Nat) :=
  if (table_elems t).length < t.length then table_insert_raw t x
  else table_insert_raw (table_rehash t (2 * t.length)) x

/-- `list(set(xs))`: build the set left to right, read it in slot
order. -/
def py_set_list (xs : List Nat) : List Nat :=
  table_elems (xs.foldl table_insert (List.replicate 8 none))

/-- The slot the probe sequence of `x` visits at step `k` in a table of
`len` slots. -/
def probe_pos (x len k : Nat) : Nat := (x % len + k) % len

/-- Every stored element sits on its own probe path with every earlier
probe slot occupied; this is the standard open-addressing invariant that
makes lookups sound. -/
def TablePlacement (t : List (Option Nat)) : Prop :=
  ∀ x p, t.get? p = some (some x) →
    ∃ k < t.length, p = probe_pos x t.length k ∧
      ∀ j < k, ∃ y, t.get? (probe_pos x t.length j) = some (some y)

/-- Well-formedness carried through all table operations. -/
def TableWF (t : List (Option Nat)) : Prop :=
  0 < t.length ∧ (table_elems t).Nodup ∧ TablePlacement t

lemma mem_table_elems {x : Nat} {t : List (Option Nat)} :
    x ∈ table_elems t ↔ some x ∈ t := by
  unfold table_elems
  rw [List.mem_filterMap]
  constructor
  · rintro ⟨a, ha, rfl⟩
    exact ha
  · intro h
    exact ⟨some x, h, rfl⟩

lemma slot_of_get {t : List (Option Nat)} {p : Nat} {v : Option Nat}
    (h : t.get? p = some v) : p < t.length := by
  obtain ⟨hlt, -⟩ := List.get?_eq_some.mp h
  exact hlt

lemma table_position_unique {t : List (Option Nat)}
    (hnodup : (table_elems t).Nodup) :
    ∀ {x p q}, t.get? p = some (some x) → t.get? q = some (some x) → p = q := by
  induction t with
  | nil =>
      intro x p q hp _
      exact absurd hp (by simp)
  | cons v rest ih =>
      intro x p q hp hq
      have hnr : (table_elems rest).Nodup := by
        cases v with
        | none => simpa [table_elems] using hnodup
        | some y => exact (List.nodup_cons.mp (by simpa [table_elems] using hnodup)).2
      cases p with
      | zero =>
          cases q with
          | zero => rfl
          | succ q1 =>
              exfalso
              have hv : v = some x := by simpa using hp
              subst hv
              have hn2 : some x ∉ rest ∧ (List.filterMap id rest).Nodup := by
                simpa [table_elems] using hnodup
              exact hn2.1 (List.mem_iff_get?.mpr ⟨q1, by simpa using hq⟩)
      | succ p1 =>
          cases q with
          | zero =>
              exfalso
              have hv : v = some x := by simpa using hq
              subst hv
              have hn2 : some x ∉ rest ∧ (List.filterMap id rest).Nodup := by
                simpa [table_elems] using hnodup
              exact hn2.1 (List.mem_iff_get?.mpr ⟨p1, by simpa using hp⟩)
          | succ q1 =>
              have := ih hnr (by simpa using hp) (by simpa using hq)
              omega

lemma exists_none_slot {t : List (Option Nat)}
    (h : (table_elems t).length < t.length) :
    ∃ p, t.get? p = some none := by
  induction t with
  | nil => simp at h
  | cons v rest ih =>
      cases v with
      | none => exact ⟨0, rfl⟩
      | some y =>
          have h2 : (table_elems rest).length < rest.length := by
            simpa [table_elems] using h
          obtain ⟨p, hp⟩ := ih h2
          exact ⟨p + 1, by simpa using hp⟩

lemma elems_set_some_of_none {x : Nat} :
    ∀ {t : List (Option Nat)} {p : Nat}, t.get? p = some none →
      List.Perm (table_elems (t.set p (some x))) (x :: table_elems t) := by
  intro t
  induction t with
  | nil =>
      intro p hp
      exact absurd hp (by simp)
  | cons v rest ih =>
      intro p hp
      cases p with
      | zero =>
          have hv : v = none := by simpa using hp
          subst hv
          simp [table_elems]
      | succ p1 =>
          have hp1 : rest.get? p1 = some none := by simpa using hp
          cases v with
          | none => simpa [table_elems] using ih hp1
          | some y =>
              have := ih hp1
              simp only [List.set, table_elems, List.filterMap_cons] at this ⊢
              simp only [id] at this ⊢
              refine (this.cons y).trans ?_
              exact List.Perm.swap x y _

lemma probe_pos_lt (x len k : Nat) (h : 0 < len) : probe_pos x len k < len :=
  Nat.mod_lt _ h

lemma probe_pos_zero (x len : Nat) : probe_pos x len 0 = x % len := by
  unfold probe_pos
  rw [Nat.add_zero, Nat.mod_mod_of_dvd _ dvd_rfl]

lemma probe_pos_succ (x len d : Nat) :
    (probe_pos x len d + 1) % len = probe_pos x len (d + 1) := by
  unfold probe_pos
  conv_lhs => rw [Nat.add_mod, Nat.mod_mod_of_dvd _ dvd_rfl, ← Nat.add_mod]
  rw [Nat.add_assoc]

lemma probe_pos_inj {x len j k : Nat} (hj : j < len) (hk : k < len)
    (h : probe_pos x len j = probe_pos x len k) : j = k := by
  unfold probe_pos at h
  have h2 : j % len = k % len :=
    Nat.ModEq.add_left_cancel (Nat.ModEq.refl (x % len)) h
  rwa [Nat.mod_eq_of_lt hj, Nat.mod_eq_of_lt hk] at h2

lemma exists_probe_offset {x len p : Nat} (hlen : 0 < len) (hp : p < len) :
    ∃ e < len, probe_pos x len e = p := by
  refine ⟨(p + len - x % len) % len, Nat.mod_lt _ hlen, ?_⟩
  have ha : x % len < len := Nat.mod_lt _ hlen
  have hab : x % len + (p + len - x % len) = p + len := by omega
  unfold probe_pos
  calc (x % len + (p + len - x % len) % len) % len
      = (x % len + (p + len - x % len)) % len :=
        (Nat.mod_modEq (p + len - x % len) len).add_left (x % len)
    _ = (p + len) % len := by rw [hab]
    _ = p := by
        rw [Nat.add_mod_right, Nat.mod_eq_of_lt hp]

lemma table_probe_length (x : Nat) :
    ∀ (fuel : Nat) (t : List (Option Nat)) (i : Nat),
      (table_probe x fuel t i).length = t.length := by
  intro fuel
  induction fuel with
  | zero => intro t i; rfl
  | succ f ih =>
      intro t i
      unfold table_probe
      match hv : t.get? i with
      | none => rfl
      | some none => exact List.length_set t i (some x)
      | some (some y) =>
          by_cases hy : y = x
          · simp [hy]
          · simp only [hy, if_false]
            exact ih t ((i + 1) % t.length)

lemma table_probe_finds (x : Nat) (t : List (Option Nat))
    (hnodup : (table_elems t).Nodup) (k0 : Nat) (hk0 : k0 < t.length)
    (hx : t.get? (probe_pos x t.length k0) = some (some x))
    (hocc : ∀ j < k0, ∃ y, t.get? (probe_pos x t.length j) = some (some y)) :
    ∀ (fuel d : Nat), d ≤ k0 → k0 - d < fuel →
      table_probe x fuel t (probe_pos x t.length d) = t := by
  have hL : 0 < t.length := lt_of_le_of_lt (Nat.zero_le k0) hk0
  intro fuel
  induction fuel with
  | zero => intro d _ h; omega
  | succ f ih =>
      intro d hd hfuel
      have hin : probe_pos x t.length d < t.length := probe_pos_lt x t.length d hL
      by_cases hdk : d = k0
      · subst hdk
        unfold table_probe
        rw [hx]
        simp
      · have hdlt : d < k0 := lt_of_le_of_ne hd hdk
        obtain ⟨y, hy⟩ := hocc d hdlt
        have hyx : y ≠ x := by
          intro heq
          subst heq
          have := table_position_unique hnodup hy hx
          exact hdk (probe_pos_inj (lt_trans hdlt hk0) hk0 this)
        unfold table_probe
        rw [hy]
        simp only [hyx, if_false]
        rw [probe_pos_succ]
        exact ih (d + 1) hdlt (by omega)

lemma table_probe_inserts (x : Nat) (t : List (Option Nat))
    (hx : some x ∉ t) (hL : 0 < t.length) :
    ∀ (fuel d e : Nat),
      t.get? (probe_pos x t.length (d + e)) = some none → e < fuel →
      (∀ j < d, ∃ y, t.get? (probe_pos x t.length j) = some (some y)) →
      ∃ k, d ≤ k ∧ k ≤ d + e ∧ t.get? (probe_pos x t.length k) = some none ∧
        (∀ j < k, ∃ y, t.get? (probe_pos x t.length j) = some (some y)) ∧
        table_probe x fuel t (probe_pos x t.length d)
          = t.set (probe_pos x t.length k) (some x) := by
  intro fuel
  induction fuel with
  | zero => intro d e _ h; omega
  | succ f ih =>
      intro d e hnone hfuel hocc
      have hin : probe_pos x t.length d < t.length := probe_pos_lt x t.length d hL
      have hget : t.get? (probe_pos x t.length d) ≠ none := by
        simp only [ne_eq, List.get?_eq_none]
        omega
      match hv : t.get? (probe_pos x t.length d) with
      | none => exact absurd hv hget
      | some none =>
          refine ⟨d, le_refl d, by omega, hv, hocc, ?_⟩
          unfold table_probe
          rw [hv]
      | some (some y) =>
          have hyx : y ≠ x := by
            intro heq
            exact hx (heq ▸ List.mem_iff_get?.mpr ⟨probe_pos x t.length d, hv⟩)
          have he1 : 1 ≤ e := by
            rcases Nat.eq_zero_or_pos e with rfl | h
            · rw [Nat.add_zero] at hnone
              rw [hv] at hnone
              simp at hnone
            · exact h
          have hnone2 : t.get? (probe_pos x t.length ((d + 1) + (e - 1))) = some none := by
            have : (d + 1) + (e - 1) = d + e := by omega
            rw [this]
            exact hnone
          have hocc2 : ∀ j < d + 1, ∃ y, t.get? (probe_pos x t.length j) = some (some y) := by
            intro j hj
            rcases Nat.lt_succ_iff_lt_or_eq.mp hj with h | rfl
            · exact hocc j h
            · exact ⟨y, hv⟩
          obtain ⟨k, hk1, hk2, hk3, hk4, hk5⟩ := ih (d + 1) (e - 1) hnone2 (by omega) hocc2
          refine ⟨k, by omega, by omega, hk3, hk4, ?_⟩
          unfold table_probe
          rw [hv]
          simp only [hyx, if_false]
          rw [probe_pos_succ]
          exact hk5

lemma table_insert_raw_of_mem {t : List (Option Nat)} {x : Nat}
    (hWF : TableWF t) (hx : some x ∈ t) : table_insert_raw t x = t := by
  obtain ⟨hL, hnodup, hplace⟩ := hWF
  obtain ⟨p, hp⟩ := List.mem_iff_get?.mp hx
  obtain ⟨k0, hk0, hpos, hocc⟩ := hplace x p hp
  subst hpos
  unfold table_insert_raw
  rw [← probe_pos_zero x t.length]
  exact table_probe_finds x t hnodup k0 hk0 hp hocc t.length 0 (Nat.zero_le k0)
    (by omega)

lemma occupied_set_of_none {t : List (Option Nat)} {p r : Nat} {x : Nat}
    (hp : t.get? p = some none) :
    (∃ y, t.get? r = some (some y)) → ∃ y, (t.set p (some x)).get? r = some (some y) := by
  rintro ⟨y, hy⟩
  have hrp : p ≠ r := by
    intro heq
    rw [heq, hy] at hp
    simp at hp
  exact ⟨y, by rw [List.get?_set_ne _ _ hrp]; exact hy⟩

lemma table_insert_raw_of_not_mem {t : List (Option Nat)} {x : Nat}
    (hWF : TableWF t) (hx : some x ∉ t)
    (hroom : (table_elems t).length < t.length) :
    TableWF (table_insert_raw t x) ∧
      List.Perm (table_elems (table_insert_raw t x)) (x :: table_elems t) ∧
      (table_insert_raw t x).length = t.length := by
  obtain ⟨hL, hnodup, hplace⟩ := hWF
  obtain ⟨p0, hp0⟩ := exists_none_slot hroom
  have hp0lt : p0 < t.length := slot_of_get hp0
  obtain ⟨e0, he0lt, he0⟩ := exists_probe_offset (x := x) hL hp0lt
  have hnone0 : t.get? (probe_pos x t.length (0 + e0)) = some none := by
    rw [Nat.zero_add, he0]
    exact hp0
  obtain ⟨k, -, hke, hknone, hkocc, hkeq⟩ :=
    table_probe_inserts x t hx hL t.length 0 e0 hnone0 (by omega) (by omega)
  have hklt : k < t.length := by omega
  have hresult : table_insert_raw t x = t.set (probe_pos x t.length k) (some x) := by
    unfold table_insert_raw
    rw [← probe_pos_zero x t.length]
    exact hkeq
  have hperm := elems_set_some_of_none (x := x) hknone
  have hxe : x ∉ table_elems t := fun h => hx (mem_table_elems.mp h)
  have hposin : probe_pos x t.length k < t.length := probe_pos_lt x t.length k hL
  refine ⟨⟨?_, ?_, ?_⟩, ?_, ?_⟩
  · rw [hresult, List.length_set]
    exact hL
  · rw [hresult]
    exact hperm.nodup_iff.mpr (List.nodup_cons.mpr ⟨hxe, hnodup⟩)
  · rw [hresult]
    intro z q hq
    simp only [List.length_set]
    by_cases hqp : q = probe_pos x t.length k
    · subst hqp
      have hqx : (t.set (probe_pos x t.length k) (some x)).get? (probe_pos x t.length k)
          = some (some x) := by
        rw [List.get?_set_eq, hknone]
        rfl
      rw [hqx] at hq
      have hz : x = z := by simpa using hq
      subst hz
      refine ⟨k, hklt, rfl, ?_⟩
      intro j hj
      exact occupied_set_of_none hknone (hkocc j hj)
    · have hq2 : t.get? q = some (some z) := by
        rw [List.get?_set_ne _ _ (fun h => hqp h.symm)] at hq
        exact hq
      obtain ⟨k1, hk1, hpos1, hocc1⟩ := hplace z q hq2
      refine ⟨k1, hk1, hpos1, ?_⟩
      intro j hj
      exact occupied_set_of_none hknone (hocc1 j hj)
  · rw [hresult]
    exact hperm
  · rw [hresult, List.length_set]

lemma table_elems_replicate (n : Nat) : table_elems (List.replicate n none) = [] := by
  induction n with
  | zero => rfl
  | succ m ih => simpa [table_elems, List.replicate] using ih

lemma tableWF_replicate {n : Nat} (hn : 0 < n) : TableWF (List.replicate n none) := by
  refine ⟨by simpa using hn, by rw [table_elems_replicate]; exact List.nodup_nil, ?_⟩
  intro x p hp
  exfalso
  have hmem : (some x : Option Nat) ∈ List.replicate n none :=
    List.mem_iff_get?.mpr ⟨p, hp⟩
  have := List.eq_of_mem_replicate hmem
  simp at this

lemma table_elems_length_le (t : List (Option Nat)) :
    (table_elems t).length ≤ t.length :=
  List.length_filterMap_le id t

lemma foldl_table_insert_raw_spec (ys : List Nat) :
    ∀ (acc : List (Option Nat)), ys.Nodup → TableWF acc →
      (∀ y ∈ ys, y ∉ table_elems acc) →
      (table_elems acc).length + ys.length ≤ acc.length →
      TableWF (ys.foldl table_insert_raw acc) ∧
        (ys.foldl table_insert_raw acc).length = acc.length ∧
        List.Perm (table_elems (ys.foldl table_insert_raw acc))
          (table_elems acc ++ ys) := by
  induction ys with
  | nil =>
      intro acc _ hWF _ _
      exact ⟨hWF, rfl, by simp⟩
  | cons y ys ih =>
      intro acc hnodup hWF hdisj hroom
      obtain ⟨hy, hys⟩ := List.nodup_cons.mp hnodup
      have hynot : some y ∉ acc := fun h =>
        hdisj y (List.mem_cons_self y ys) (mem_table_elems.mpr h)
      have hroom1 : (table_elems acc).length < acc.length := by
        have := hroom
        simp only [List.length_cons] at this
        omega
      obtain ⟨hWF2, hperm2, hlen2⟩ := table_insert_raw_of_not_mem hWF hynot hroom1
      have hdisj2 : ∀ z ∈ ys, z ∉ table_elems (table_insert_raw acc y) := by
        intro z hz hmem
        rcases List.mem_cons.mp (hperm2.mem_iff.mp hmem) with rfl | h2
        · exact hy hz
        · exact hdisj z (List.mem_cons_of_mem y hz) h2
      have hroom2 : (table_elems (table_insert_raw acc y)).length + ys.length
          ≤ (table_insert_raw acc y).length := by
        rw [hperm2.length_eq, hlen2]
        simp only [List.length_cons]
        have := hroom
        simp only [List.length_cons] at this
        omega
      obtain ⟨hWF3, hlen3, hperm3⟩ := ih (table_insert_raw acc y) hys hWF2 hdisj2 hroom2
      simp only [List.foldl_cons]
      refine ⟨hWF3, by rw [hlen3, hlen2], ?_⟩
      refine hperm3.trans ?_
      refine (hperm2.append_right ys).trans ?_
      simp only [List.cons_append]
      exact (List.perm_middle).symm

lemma table_rehash_spec {t : List (Option Nat)} {n : Nat} (hWF : TableWF t)
    (hn : (table_elems t).length < n) :
    TableWF (table_rehash t n) ∧ (table_rehash t n).length = n ∧
      List.Perm (table_elems (table_rehash t n)) (table_elems t) := by
  have hn0 : 0 < n := lt_of_le_of_lt (Nat.zero_le _) hn
  have h0 := foldl_table_insert_raw_spec (table_elems t) (List.replicate n none)
    hWF.2.1 (tableWF_replicate hn0)
    (by
      intro y _
      rw [table_elems_replicate]
      exact List.not_mem_nil y)
    (by
      rw [table_elems_replicate, List.length_replicate]
      simpa using le_of_lt hn)
  obtain ⟨hWF2, hlen2, hperm2⟩ := h0
  unfold table_rehash
  refine ⟨hWF2, by rw [hlen2, List.length_replicate], ?_⟩
  refine hperm2.trans ?_
  rw [table_elems_replicate, List.nil_append]

lemma table_insert_spec {t : List (Option Nat)} {x : Nat} (hWF : TableWF t) :
    TableWF (table_insert t x) ∧
      ((x ∈ table_elems t ∧
          List.Perm (table_elems (table_insert t x)) (table_elems t)) ∨
        (x ∉ table_elems t ∧
          List.Perm (table_elems (table_insert t x)) (x :: table_elems t))) := by
  unfold table_insert
  by_cases hroom : (table_elems t).length < t.length
  · rw [if_pos hroom]
    by_cases hx : some x ∈ t
    · rw [table_insert_raw_of_mem hWF hx]
      exact ⟨hWF, Or.inl ⟨mem_table_elems.mpr hx, List.Perm.refl _⟩⟩
    · obtain ⟨hWF2, hperm2, -⟩ := table_insert_raw_of_not_mem hWF hx hroom
      exact ⟨hWF2, Or.inr ⟨fun h => hx (mem_table_elems.mp h), hperm2⟩⟩
  · rw [if_neg hroom]
    have hL := hWF.1
    have hfull : (table_elems t).length = t.length :=
      le_antisymm (table_elems_length_le t) (by omega)
    have hn : (table_elems t).length < 2 * t.length := by omega
    obtain ⟨hWF2, hlen2, hperm2⟩ := table_rehash_spec hWF hn
    by_cases hx : some x ∈ table_rehash t (2 * t.length)
    · rw [table_insert_raw_of_mem hWF2 hx]
      refine ⟨hWF2, Or.inl ⟨?_, hperm2⟩⟩
      exact hperm2.mem_iff.mp (mem_table_elems.mpr hx)
    · have hroom2 : (table_elems (table_rehash t (2 * t.length))).length
          < (table_rehash t (2 * t.length)).length := by
        rw [hperm2.length_eq, hlen2, hfull]
        omega
      obtain ⟨hWF3, hperm3, -⟩ := table_insert_raw_of_not_mem hWF2 hx hroom2
      refine ⟨hWF3, Or.inr ⟨?_, hperm3.trans (hperm2.cons x)⟩⟩
      intro h
      exact hx (mem_table_elems.mp (hperm2.mem_iff.mpr h))

lemma foldl_table_insert_spec (xs : List Nat) :
    ∀ (acc : List (Option Nat)), TableWF acc →
      TableWF (xs.foldl table_insert acc) ∧
      ∀ n, n ∈ table_elems (xs.foldl table_insert acc) ↔
        n ∈ table_elems acc ∨ n ∈ xs := by
  induction xs with
  | nil =>
      intro acc hWF
      refine ⟨hWF, ?_⟩
      simp
  | cons x xs ih =>
      intro acc hWF
      obtain ⟨hWF2, hcase⟩ := table_insert_spec (x := x) hWF
      obtain ⟨hWF3, hmem3⟩ := ih (table_insert acc x) hWF2
      refine ⟨hWF3, ?_⟩
      intro n
      rw [List.foldl_cons] at *
      rw [hmem3 n]
      rcases hcase with ⟨hx, hperm⟩ | ⟨hx, hperm⟩
      · rw [hperm.mem_iff]
        constructor
        · rintro (h | h)
          · exact Or.inl h
          · exact Or.inr (List.mem_cons_of_mem x h)
        · rintro (h | h)
          · exact Or.inl h
          · rcases List.mem_cons.mp h with rfl | h2
            · exact Or.inl hx
            · exact Or.inr h2
      · rw [hperm.mem_iff]
        simp only [List.mem_cons]
        tauto

/-- `list(set(xs))` contains exactly the distinct members of `xs`, each
once. -/
lemma py_set_list_spec (xs : List Nat) :
    (py_set_list xs).Nodup ∧ ∀ n, n ∈ py_set_list xs ↔ n ∈ xs := by
  obtain ⟨hWF, hmem⟩ := foldl_table_insert_spec xs (List.replicate 8 none)
    (tableWF_replicate (by omega))
  refine ⟨hWF.2.1, ?_⟩
  intro n
  rw [py_set_list, hmem n, table_elems_replicate]
  simp

/- ------------------------------------------------------------------ -/
/- Streaming synthesis (agents/synthesis.py run_stream)               -/
/- ------------------------------------------------------------------ -/

/-- `int(...)` on a digit run. -/
def digits_to_nat (ds : List Char) : Nat :=
  ds.foldl (fun n c => 10 * n + (c.toNat - 48)) 0

/-- `re.findall(r"\[Source (\d+)\]", s)` followed by `int(...)`:
left-to-right, non-overlapping scan; at each position try the literal
"[Source ", then a non-empty digit run, then "]"; on success continue
after the match, otherwise advance one character.  The scan consumes at
least one character per step, so `s.length` fuel (supplied by the
wrapper below) always suffices; fuel-based structural recursion keeps
the definition kernel-computable. -/
def parse_source_ordinals_fuel : Nat → List Char → List Nat
  | 0, _ => []
  | _, [] => []
  | fuel + 1, c :: rest =>
      if ("[Source ".toList).isPrefixOf (c :: rest) then
        let after := rest.drop 7
        let digits := after.takeWhile (fun ch => ch.isDigit)
        let tail := after.dropWhile (fun ch => ch.isDigit)
        if digits ≠ [] ∧ tail.head? = some ']' then
          digits_to_nat digits :: parse_source_ordinals_fuel fuel (tail.drop 1)
        else
          parse_source_ordinals_fuel fuel rest
      else
        parse_source_ordinals_fuel fuel rest

/-- The ordinals `N` of the `[Source N]` occurrences in a string, in
occurrence order. -/
def parse_source_ordinals (s : List Char) : List Nat :=
  parse_source_ordinals_fuel s.length s

/-- One chunk from `generate_stream`: `chunk.get("type", "text")` and
`chunk.get("content", "")`.  The `isinstance(chunk_content, str)` guard
only skips non-string payloads, which have no representation here. -/
structure StreamChunk where
  type : String := "text"
  content : String := ""
  deriving DecidableEq, Repr

/-- An `ImageContext` (agents/base.py) as packed into the prompt. -/
structure ImageCtx where
  document_id : String := ""
  filename : String := "image"
  storage_path : String := ""
  description : String := ""
  deriving DecidableEq, Repr

/-- A key of `source_map`: the integer ordinals `N` for internal and web
sources, and the string keys `"image_k"` for images. -/
inductive SMKey where
  | ord (n : Nat)
  | image (k : Nat)
  deriving DecidableEq, Repr

/-- A value of `source_map`. -/
inductive SMVal where
  | internal (chunk_id document_id : Option String)
  | web (url title : Option String)
  | image (document_id filename storage_path : String)
  deriving DecidableEq, Repr

/-- The internal-source entries of `source_map`, numbered from
`source_num = n`. -/
def map_internal_entries : List SrcDict → Nat → List (SMKey × SMVal)
  | [], _ => []
  | s :: rest, n =>
      (SMKey.ord n, SMVal.internal s.chunk_id s.document_id)
        :: map_internal_entries rest (n + 1)

/-- The web-source entries of `source_map`. -/
def map_web_entries : List SrcDict → Nat → List (SMKey × SMVal)
  | [], _ => []
  | s :: rest, n =>
      (SMKey.ord n, SMVal.web s.url s.title) :: map_web_entries rest (n + 1)

/-- The image entries of `source_map` (string keys `image_k`). -/
def map_image_entries : List ImageCtx → Nat → List (SMKey × SMVal)
  | [], _ => []
  | img :: rest, k =>
      (SMKey.image k, SMVal.image img.document_id img.filename img.storage_path)
        :: map_image_entries rest (k + 1)

/-- `source_map` as built by `run_stream` (synthesis.py lines 289-348):
internal sources first at ordinals 1.., then web sources continuing the
ordinal counter, then images under `image_1..`. -/
def build_source_map (internal_sources web_sources : List SrcDict)
    (images : List ImageCtx) : List (SMKey × SMVal) :=
  map_internal_entries internal_sources 1
    ++ map_web_entries web_sources (internal_sources.length + 1)
    ++ map_image_entries images 1

/-- The inputs of one `run_stream` call, with the LLM's streamed chunks
(and whether the stream raised) as explicit inputs. -/
structure SynthStreamInput where
  internal_sources : List SrcDict := []
  web_sources : List SrcDict := []
  images : List ImageCtx := []
  generated_image_url : Option String := none
  stream : List StreamChunk := []
  stream_error : Bool := false
  deriving Repr

/-- The fallback answer emitted when streaming raises
(synthesis.py lines 474-480). -/
def stream_fallback_answer : String :=
  "I apologize, but I encountered an issue generating a response. Please try again."

/-- The accumulated `full_answer` after the streaming loop and the
generated-image join (synthesis.py lines 430-494): concatenation of the
"text" chunks (or the fallback on a streaming exception), then the
appended image markdown when `generated_image_url` is set. -/
def run_stream_answer (inp : SynthStreamInput) : String :=
  let base :=
    if inp.stream_error then stream_fallback_answer
    else String.join ((inp.stream.filter (fun c => c.type == "text")).map
      (fun c => c.content))
  match inp.generated_image_url with
  | some url => base ++ "\n\n![Generated Image](" ++ url ++ ")"
  | none => base

/-- `sources_used = list(set(int(m) for m in re.findall(...)))`
(synthesis.py lines 496-500). -/
def run_stream_sources_used (inp : SynthStreamInput) : List Nat :=
  py_set_list (parse_source_ordinals (run_stream_answer inp).toList)

/-- The `result` dict of the final "complete" chunk (synthesis.py lines
502-509). -/
structure SynthStreamResult where
  answer : String
  sources_used : List Nat
  confidence : String
  source_map : List (SMKey × SMVal)
  deriving Repr

/-- The complete output of `run_stream`. -/
def run_stream_result (inp : SynthStreamInput) : SynthStreamResult :=
  { answer := run_stream_answer inp
    sources_used := run_stream_sources_used inp
    confidence := "medium"
    source_map := build_source_map inp.internal_sources inp.web_sources inp.images }

/-- Modelled from the spec for comparison only: `sorted(unique(...))` as
the claim words it — ascending insertion sort of the deduplicated
ordinals.  (The code computes `list(set(...))` instead.) -/
def spec_sorted_unique (l : List Nat) : List Nat :=
  (l.dedup).insertionSort (· ≤ ·)

lemma mem_keys_map_internal (srcs : List SrcDict) :
    ∀ (k n : Nat), SMKey.ord n ∈ (map_internal_entries srcs k).map Prod.fst ↔
      k ≤ n ∧ n < k + srcs.length := by
  induction srcs with
  | nil =>
      intro k n
      simp [map_internal_entries]
  | cons s rest ih =>
      intro k n
      simp only [map_internal_entries, List.map_cons, List.mem_cons, ih,
        SMKey.ord.injEq, List.length_cons]
      constructor
      · rintro (rfl | ⟨h1, h2⟩) <;> omega
      · intro ⟨h1, h2⟩
        by_cases hnk : n = k
        · exact Or.inl hnk
        · exact Or.inr ⟨by omega, by omega⟩

lemma mem_keys_map_web (srcs : List SrcDict) :
    ∀ (k n : Nat), SMKey.ord n ∈ (map_web_entries srcs k).map Prod.fst ↔
      k ≤ n ∧ n < k + srcs.length := by
  induction srcs with
  | nil =>
      intro k n
      simp [map_web_entries]
  | cons s rest ih =>
      intro k n
      simp only [map_web_entries, List.map_cons, List.mem_cons, ih,
        SMKey.ord.injEq, List.length_cons]
      constructor
      · rintro (rfl | ⟨h1, h2⟩) <;> omega
      · intro ⟨h1, h2⟩
        by_cases hnk : n = k
        · exact Or.inl hnk
        · exact Or.inr ⟨by omega, by omega⟩

lemma ord_not_mem_map_image (imgs : List ImageCtx) :
    ∀ (k n : Nat), SMKey.ord n ∉ (map_image_entries imgs k).map Prod.fst := by
  induction imgs with
  | nil =>
      intro k n
      simp [map_image_entries]
  | cons img rest ih =>
      intro k n
      simp only [map_image_entries, List.map_cons, List.mem_cons]
      rintro (h | h)
      · exact absurd h (by simp)
      · exact ih (k + 1) n h

lemma ord_mem_build_source_map (ints webs : List SrcDict) (imgs : List ImageCtx)
    (n : Nat) :
    SMKey.ord n ∈ (build_source_map ints webs imgs).map Prod.fst ↔
      1 ≤ n ∧ n < 1 + ints.length + webs.length := by
  unfold build_source_map
  simp only [List.map_append, List.mem_append, mem_keys_map_internal,
    mem_keys_map_web]
  constructor
  · rintro ((⟨h1, h2⟩ | ⟨h1, h2⟩) | h)
    · omega
    · omega
    · exact absurd h (ord_not_mem_map_image imgs 1 n)
  · intro ⟨h1, h2⟩
    by_cases hn : n < 1 + ints.length
    · exact Or.inl (Or.inl ⟨h1, by omega⟩)
    · exact Or.inl (Or.inr ⟨by omega, by omega⟩)

/-- C4 counterexample: with one internal source packed (ordinal 1) and an
LLM stream citing `[Source 5]`, the ordinal 5 occurs in the final answer
but is not a key of `source_map`. -/
theorem synthesis_citation_keys_counterexample :
    ¬ (∀ n, n ∈ parse_source_ordinals
        (run_stream_result { internal_sources := [{ content := some "alpha" }],
                             stream := [{ content := "[Source 5]" }] }).answer.toList →
      SMKey.ord n ∈ (run_stream_result { internal_sources := [{ content := some "alpha" }],
                                         stream := [{ content := "[Source 5]" }]
        }).source_map.map Prod.fst) := by
  decide

/-- C4 (amended): every ordinal occurring as `[Source N]` in the final
answer that lies within the packed ordinal range — `1 ≤ N ≤ #internal +
#web` — is a key of `source_map` (and so refers to a packed source); the
code does not prevent the model from citing out-of-range ordinals, which
are then absent from `source_map`. -/
theorem synthesis_citation_keys_in_range (inp : SynthStreamInput) (n : Nat)
    (hmem : n ∈ parse_source_ordinals (run_stream_result inp).answer.toList)
    (h1 : 1 ≤ n)
    (h2 : n ≤ inp.internal_sources.length + inp.web_sources.length) :
    SMKey.ord n ∈ (run_stream_result inp).source_map.map Prod.fst := by
  exact (ord_mem_build_source_map inp.internal_sources inp.web_sources
    inp.images n).mpr ⟨h1, by omega⟩

/-- Witness for C4 (amended): one internal source, answer citing
`[Source 1]`. -/
theorem synthesis_citation_keys_in_range_witness :
    (1 ∈ parse_source_ordinals
      (run_stream_result { internal_sources := [{ content := some "alpha" }],
                           stream := [{ content := "[Source 1]" }] }).answer.toList) ∧
    SMKey.ord 1 ∈ (run_stream_result { internal_sources := [{ content := some "alpha" }],
                                       stream := [{ content := "[Source 1]" }]
      }).source_map.map Prod.fst :=
  ⟨by decide,
    synthesis_citation_keys_in_range
      { internal_sources := [{ content := some "alpha" }],
        stream := [{ content := "[Source 1]" }] } 1 (by decide) (by decide) (by decide)⟩

/-- C6 counterexample: an answer citing Source 9 then Source 1 yields
`sources_used = [9, 1]` (hash-set iteration order: 9 sits in slot 1 of
the 8-slot table, 1 collides and probes to a later slot), while
`sorted(unique(...))` is `[1, 9]`. -/
theorem sources_used_sorted_counterexample :
    run_stream_sources_used
        { stream := [{ content := "see [Source 9] and [Source 1]" }] } = [9, 1] ∧
    spec_sorted_unique (parse_source_ordinals (run_stream_answer
        { stream := [{ content := "see [Source 9] and [Source 1]" }] }).toList) = [1, 9] ∧
    run_stream_sources_used
        { stream := [{ content := "see [Source 9] and [Source 1]" }] }
      ≠ spec_sorted_unique (parse_source_ordinals (run_stream_answer
        { stream := [{ content := "see [Source 9] and [Source 1]" }] }).toList) := by
  refine ⟨by decide, by decide, by decide⟩

/-- C6 (amended): after streaming, `sources_used` is a duplicate-free
list containing exactly the distinct integers `N` occurring as
`[Source N]` in the accumulated answer; its order is the hash-set
iteration order of `list(set(...))`, not necessarily ascending. -/
theorem sources_used_set_semantics (inp : SynthStreamInput) :
    ((run_stream_result inp).sources_used).Nodup ∧
    ∀ n, n ∈ (run_stream_result inp).sources_used ↔
      n ∈ parse_source_ordinals ((run_stream_result inp).answer).toList :=
  py_set_list_spec (parse_source_ordinals (run_stream_answer inp).toList)
